import Mathlib

/-!
Verification of the claim coordinator and durable line store of
`server.js` (a shared allocation service: clients propose candidate
identifier lines, the server grants each identifier at most once, backed
by an append-only `provided.txt` log).

Embedding conventions:
* The durable log is a `List String` of physical records (one per line).
  Every write performed by the program appends newline-terminated records,
  so record boundaries are exactly list elements.
* `jsTrim` models JavaScript `String.prototype.trim` (strip leading and
  trailing whitespace); `filterLines` models
  `lines.map(s => String(s).trim()).filter(Boolean)`.
* A request body field that is missing or not of the expected shape is
  modelled as `none` (`Array.isArray` guard); `req.body.limit` is
  modelled as `Option Int`: `none` covers an absent or non-numeric limit
  (`Number(...)` yields `NaN`, which is falsy), `some n` a numeric one.
  `Math.max(0, Number(req.body.limit) || candidates.length)` becomes
  `effLimit`.
* An I/O failure of the log read or of the grant append is modelled by
  the two Boolean flags of `claimCycleF`; the append itself
  (`fs.appendFile` of the whole batch in one call) is all-or-nothing,
  as §4.1 of the design requires.
-/

/-- Strip leading and trailing whitespace characters from a character
list: the content of JavaScript `trim`. -/
def trimChars (l : List Char) : List Char :=
  ((l.dropWhile Char.isWhitespace).reverse.dropWhile Char.isWhitespace).reverse

/-- JavaScript `String(s).trim()` on the embedded string. -/
def jsTrim (s : String) : String :=
  ⟨trimChars s.data⟩

/-- `lines.map(s => String(s).trim()).filter(Boolean)`: trim every
entry, then drop the blank ones. -/
def filterLines (lines : List String) : List String :=
  (lines.map jsTrim).filter (fun s => s ≠ "")

/-- Stable first-occurrence deduplication with an accumulator of already
seen elements: `Array.from(new Set(...))` preserves insertion order. -/
def uniqFirst : List String → List String → List String
  | _, [] => []
  | seen, x :: xs => if x ∈ seen then uniqFirst seen xs else x :: uniqFirst (x :: seen) xs

/-- `readProvidedSet`: read the whole log, split into lines, trim each,
drop blanks, and deduplicate into a set (represented as the stable list
of first occurrences; only membership is ever consulted). -/
def readProvidedSet (log : List String) : List String :=
  uniqFirst [] (filterLines log)

/-- `appendProvidedLines`: deduplicate the trimmed, non-blank input and
append the survivors to the log in one write; returns the new log and
the count of records written.  A no-op returning 0 when nothing
survives the filtering. -/
def appendProvidedLines (log : List String) (lines : List String) : List String × Nat :=
  let u := uniqFirst [] (filterLines lines)
  if u.isEmpty then (log, 0) else (log ++ u, u.length)

/-- `POST /provided_append`: a missing or non-array `lines` field is
replaced by the empty array, then `appendProvidedLines` runs; the second
component is the returned `added` count. -/
def providedAppend (log : List String) (linesOpt : Option (List String)) : List String × Nat :=
  appendProvidedLines log (linesOpt.getD [])

/-- `Math.max(0, Number(req.body.limit) || candidates.length)`:
an absent or non-numeric limit (`Number` gives `NaN`, falsy) and a zero
limit (also falsy) both fall back to the batch length; a negative limit
is clamped to 0 by `Math.max`. -/
def effLimit (raw : Option Int) (batchLen : Nat) : Nat :=
  match raw with
  | none => batchLen
  | some n => if n = 0 then batchLen else n.toNat

/-- The decision loop of `POST /claim`: walk the candidates in order,
carrying the working set (`providedSet`, grown by each grant) and the
current claimed count; a candidate is rejected when the limit is
exhausted or when it is already in the working set, and granted
otherwise.  Returns `(claimed, rejected)` in input order. -/
def claimLoop (limit : Nat) : List String → Nat → List String → List String × List String
  | _, _, [] => ([], [])
  | set, cnt, c :: cs =>
    if limit ≤ cnt then
      let r := claimLoop limit set cnt cs
      (r.1, c :: r.2)
    else if c ∈ set then
      let r := claimLoop limit set cnt cs
      (r.1, c :: r.2)
    else
      let r := claimLoop limit (c :: set) (cnt + 1) cs
      (c :: r.1, r.2)

/-- The novel subsequence of a candidate list relative to a store:
first occurrences of identifiers not in the store, in input order.
Used to characterise what the loop grants. -/
def novelSeq : List String → List String → List String
  | _, [] => []
  | set, c :: cs => if c ∈ set then novelSeq set cs else c :: novelSeq (c :: set) cs

/-- Outcome of one `POST /claim` cycle: the two response partitions and
the durable log after the cycle. -/
structure ClaimOutcome where
  claimed : List String
  rejected : List String
  log : List String
  deriving Repr, DecidableEq

/-- One `POST /claim` cycle with failure injection: `loadFails` makes
`readProvidedSet` throw, `persistFails` makes the grant append throw;
either is caught by the handler, which then resolves with
`{claimed: [], rejected: candidates}` and leaves the log untouched.
The empty-batch early return precedes everything else, as in the
source. -/
def claimCycleF (log : List String) (linesOpt : Option (List String)) (limitRaw : Option Int)
    (loadFails persistFails : Bool) : ClaimOutcome :=
  let candidates := match linesOpt with
    | some ls => filterLines ls
    | none => []
  let limit := effLimit limitRaw candidates.length
  if candidates.isEmpty then ⟨[], [], log⟩
  else if loadFails then ⟨[], candidates, log⟩
  else
    let r := claimLoop limit (readProvidedSet log) 0 candidates
    if r.1.isEmpty then ⟨r.1, r.2, log⟩
    else if persistFails then ⟨[], candidates, log⟩
    else ⟨r.1, r.2, (appendProvidedLines log r.1).1⟩

/-- One failure-free `POST /claim` cycle. -/
def claimCycle (log : List String) (linesOpt : Option (List String)) (limitRaw : Option Int) :
    ClaimOutcome :=
  claimCycleF log linesOpt limitRaw false false

/-- A sequential history of failure-free claim calls: run each call's
cycle against the log left by the previous one and collect the
outcomes. -/
def runHistory : List String → List (List String × Option Int) → List ClaimOutcome
  | _, [] => []
  | log, (ls, lim) :: rest =>
    let o := claimCycle log (some ls) lim
    o :: runHistory o.log rest

/-! ### Trimming lemmas -/

/-- Any element surfacing as the head of a `dropWhile` fails the
predicate. -/
lemma head?_dropWhile_false (p : α → Bool) (l : List α) :
    ∀ x, (l.dropWhile p).head? = some x → p x = false := by
  intro x hx
  have h := List.head?_dropWhile_not p l
  revert h
  rw [hx]
  exact id

/-- `dropWhile` is the identity on a list whose head already fails the
predicate. -/
lemma dropWhile_eq_self_of_head (p : α → Bool) (l : List α)
    (h : ∀ x, l.head? = some x → p x = false) : l.dropWhile p = l := by
  cases l with
  | nil => rfl
  | cons x xs =>
    have hx : p x = false := h x rfl
    simp [List.dropWhile_cons, hx]

/-- A nonempty `dropWhile` keeps the last element of the list. -/
lemma getLast?_dropWhile (p : α → Bool) (l : List α) (h : l.dropWhile p ≠ []) :
    (l.dropWhile p).getLast? = l.getLast? := by
  induction l with
  | nil => simp at h
  | cons x xs ih =>
    by_cases hx : p x
    · rw [List.dropWhile_cons_of_pos hx] at h ⊢
      have hxs : xs ≠ [] := by
        intro he
        subst he
        simp at h
      rw [ih h]
      cases xs with
      | nil => exact absurd rfl hxs
      | cons y ys => simp
    · rw [List.dropWhile_cons_of_neg hx]

/-- Trimming a character list twice is the same as trimming it once. -/
lemma trimChars_idem (l : List Char) : trimChars (trimChars l) = trimChars l := by
  set p := Char.isWhitespace with hp
  set A := l.dropWhile p with hA
  set C := A.reverse.dropWhile p with hC
  have hT : trimChars l = C.reverse := rfl
  rw [hT]
  by_cases hCnil : C = []
  · simp [trimChars, hCnil]
  · have hhead : ∀ x, C.reverse.head? = some x → p x = false := by
      intro x hx
      rw [List.head?_reverse] at hx
      rw [getLast?_dropWhile p A.reverse hCnil] at hx
      rw [List.getLast?_reverse] at hx
      exact head?_dropWhile_false p l x hx
    have hlast : ∀ x, C.reverse.getLast? = some x → p x = false := by
      intro x hx
      rw [List.getLast?_reverse] at hx
      exact head?_dropWhile_false p A.reverse x hx
    show ((C.reverse.dropWhile p).reverse.dropWhile p).reverse = C.reverse
    rw [dropWhile_eq_self_of_head p C.reverse hhead]
    rw [dropWhile_eq_self_of_head p C.reverse.reverse (by simpa using hlast)]
    simp

/-- Trimming a string twice is the same as trimming it once. -/
lemma jsTrim_idem (s : String) : jsTrim (jsTrim s) = jsTrim s := by
  show (⟨trimChars (trimChars s.data)⟩ : String) = ⟨trimChars s.data⟩
  rw [trimChars_idem]

/-! ### filterLines and uniqFirst lemmas -/

/-- Membership in the trimmed, blank-filtered list. -/
lemma mem_filterLines {x : String} {l : List String} :
    x ∈ filterLines l ↔ (∃ y ∈ l, jsTrim y = x) ∧ x ≠ "" := by
  simp [filterLines, List.mem_filter, List.mem_map]

/-- Every element of a trimmed, blank-filtered list is a fixed point of
trimming and is non-blank. -/
lemma mem_filterLines_trimmed {x : String} {l : List String} (h : x ∈ filterLines l) :
    jsTrim x = x ∧ x ≠ "" := by
  rw [mem_filterLines] at h
  obtain ⟨⟨y, _, hy⟩, hne⟩ := h
  exact ⟨hy ▸ jsTrim_idem y, hne⟩

/-- `filterLines` distributes over concatenation. -/
lemma filterLines_append (a b : List String) :
    filterLines (a ++ b) = filterLines a ++ filterLines b := by
  simp [filterLines]

/-- A list of trimmed non-blank strings is untouched by `filterLines`. -/
lemma filterLines_eq_self {u : List String} (h : ∀ x ∈ u, jsTrim x = x ∧ x ≠ "") :
    filterLines u = u := by
  induction u with
  | nil => rfl
  | cons x xs ih =>
    have hx := h x (List.mem_cons_self x xs)
    have hxs := ih fun y hy => h y (List.mem_cons_of_mem x hy)
    simp only [filterLines, List.map_cons, hx.1] at *
    rw [List.filter_cons_of_pos (by simpa using hx.2)]
    rw [hxs]

/-- Membership in `uniqFirst`: present in the input and not among the
already seen elements. -/
lemma mem_uniqFirst {x : String} {seen l : List String} :
    x ∈ uniqFirst seen l ↔ x ∈ l ∧ x ∉ seen := by
  induction l generalizing seen with
  | nil => simp [uniqFirst]
  | cons y ys ih =>
    by_cases hy : y ∈ seen
    · rw [uniqFirst, if_pos hy, ih]
      constructor
      · rintro ⟨h1, h2⟩
        exact ⟨List.mem_cons_of_mem y h1, h2⟩
      · rintro ⟨h1, h2⟩
        rcases List.mem_cons.mp h1 with rfl | h1
        · exact absurd hy h2
        · exact ⟨h1, h2⟩
    · rw [uniqFirst, if_neg hy]
      simp only [List.mem_cons, ih, List.mem_cons]
      constructor
      · rintro (rfl | ⟨h1, h2⟩)
        · exact ⟨Or.inl rfl, hy⟩
        · exact ⟨Or.inr h1, fun hx => h2 (Or.inr hx)⟩
      · rintro ⟨rfl | h1, h2⟩
        · exact Or.inl rfl
        · by_cases hxy : x = y
          · exact Or.inl hxy
          · exact Or.inr ⟨h1, fun hx => (by tauto : False)⟩

/-- `uniqFirst` produces a duplicate-free list. -/
lemma nodup_uniqFirst (seen l : List String) : (uniqFirst seen l).Nodup := by
  induction l generalizing seen with
  | nil => exact List.nodup_nil
  | cons y ys ih =>
    rw [uniqFirst]
    split
    · exact ih seen
    · refine List.Nodup.cons ?_ (ih (y :: seen))
      intro hmem
      exact ((mem_uniqFirst.mp hmem).2) (List.mem_cons_self y seen)

/-- `uniqFirst` returns the empty list exactly when every input element
was already seen. -/
lemma uniqFirst_eq_nil {seen l : List String} :
    uniqFirst seen l = [] ↔ ∀ x ∈ l, x ∈ seen := by
  induction l generalizing seen with
  | nil => simp [uniqFirst]
  | cons y ys ih =>
    by_cases hy : y ∈ seen
    · rw [uniqFirst, if_pos hy, ih]
      constructor
      · intro h x hx
        rcases List.mem_cons.mp hx with rfl | hx
        · exact hy
        · exact h x hx
      · intro h x hx
        exact h x (List.mem_cons_of_mem y hx)
    · rw [uniqFirst, if_neg hy]
      simp only [List.cons_ne_nil, false_iff]
      intro h
      exact hy (h y (List.mem_cons_self y ys))

/-- Elements of trimmed non-blank input survive into `uniqFirst` of its
filtering, so `filterLines` is also the identity there. -/
lemma filterLines_uniqFirst (l : List String) :
    filterLines (uniqFirst [] (filterLines l)) = uniqFirst [] (filterLines l) := by
  refine filterLines_eq_self fun x hx => ?_
  exact mem_filterLines_trimmed (mem_uniqFirst.mp hx).1

/-- Membership in the store read back from the log is membership in the
trimmed, blank-filtered log. -/
lemma mem_readProvidedSet {x : String} {log : List String} :
    x ∈ readProvidedSet log ↔ x ∈ filterLines log := by
  rw [readProvidedSet, mem_uniqFirst]
  simp

/-! ### Store lemmas -/

/-- Read-your-writes at the membership level: the set read back after an
append is the old set united with the trimmed, blank-filtered input. -/
lemma mem_readProvidedSet_append {x : String} (log lines : List String) :
    x ∈ readProvidedSet (appendProvidedLines log lines).1 ↔
      x ∈ readProvidedSet log ∨ x ∈ filterLines lines := by
  rw [appendProvidedLines]
  by_cases hu : (uniqFirst [] (filterLines lines)).isEmpty
  · rw [if_pos hu]
    have hnil : uniqFirst [] (filterLines lines) = [] := by
      simpa [List.isEmpty_iff] using hu
    have hfl : filterLines lines = [] := by
      rcases (uniqFirst_eq_nil.mp hnil) with h
      cases hfc : filterLines lines with
      | nil => rfl
      | cons y ys => exact absurd (h y (hfc ▸ List.mem_cons_self y ys)) (by simp)
    simp [hfl]
  · rw [if_neg hu]
    simp only [mem_readProvidedSet, filterLines_append, List.mem_append]
    rw [filterLines_uniqFirst, mem_uniqFirst]
    simp

/-- The length of `uniqFirst` counts the distinct elements of the input
outside the seen accumulator. -/
lemma uniqFirst_length (seen l : List String) :
    (uniqFirst seen l).length = (l.toFinset \ seen.toFinset).card := by
  induction l generalizing seen with
  | nil => simp [uniqFirst]
  | cons y ys ih =>
    by_cases hy : y ∈ seen
    · rw [uniqFirst, if_pos hy, ih]
      congr 1
      rw [List.toFinset_cons, Finset.insert_sdiff_of_mem]
      simpa using hy
    · rw [uniqFirst, if_neg hy]
      simp only [List.length_cons, ih]
      have hset : (y :: ys).toFinset \ seen.toFinset =
          insert y (ys.toFinset \ (y :: seen).toFinset) := by
        ext a
        simp only [List.toFinset_cons, Finset.mem_sdiff, Finset.mem_insert, List.mem_toFinset]
        by_cases ha : a = y
        · subst ha
          simpa using hy
        · tauto
      rw [hset, Finset.card_insert_of_not_mem (by simp)]

/-- The number of records `appendProvidedLines` reports is the number of
distinct trimmed non-blank identifiers of its input, irrespective of the
log contents. -/
lemma appendProvidedLines_count (log lines : List String) :
    (appendProvidedLines log lines).2 = (filterLines lines).toFinset.card := by
  rw [appendProvidedLines]
  split
  · rename_i hu
    have hnil : uniqFirst [] (filterLines lines) = [] := by
      simpa [List.isEmpty_iff] using hu
    have : (filterLines lines) = [] := by
      have h := uniqFirst_eq_nil.mp hnil
      cases hfc : filterLines lines with
      | nil => rfl
      | cons y ys => exact absurd (h y (hfc ▸ List.mem_cons_self y ys)) (by simp)
    simp [this]
  · show (uniqFirst [] (filterLines lines)).length = _
    rw [uniqFirst_length]
    simp

/-! ### Decision loop lemmas -/

/-- The two partitions of the decision loop are together a permutation
of the candidate list: every candidate lands in exactly one of them. -/
lemma claimLoop_perm (limit : Nat) (set : List String) (cnt : Nat) (cs : List String) :
    ((claimLoop limit set cnt cs).1 ++ (claimLoop limit set cnt cs).2).Perm cs := by
  induction cs generalizing set cnt with
  | nil => simp [claimLoop]
  | cons c cs ih =>
    simp only [claimLoop]
    by_cases h1 : limit ≤ cnt
    · rw [if_pos h1]
      exact List.perm_middle.trans ((ih set cnt).cons c)
    · rw [if_neg h1]
      by_cases h2 : c ∈ set
      · rw [if_pos h2]
        exact List.perm_middle.trans ((ih set cnt).cons c)
      · rw [if_neg h2]
        exact (ih (c :: set) (cnt + 1)).cons c

/-- Nothing in the working set is ever granted. -/
lemma claimLoop_claimed_not_mem (limit : Nat) (set : List String) (cnt : Nat)
    (cs : List String) {x : String} (hx : x ∈ (claimLoop limit set cnt cs).1) : x ∉ set := by
  induction cs generalizing set cnt with
  | nil => simp [claimLoop] at hx
  | cons c cs ih =>
    simp only [claimLoop] at hx
    by_cases h1 : limit ≤ cnt
    · rw [if_pos h1] at hx
      exact ih set cnt hx
    · rw [if_neg h1] at hx
      by_cases h2 : c ∈ set
      · rw [if_pos h2] at hx
        exact ih set cnt hx
      · rw [if_neg h2] at hx
        rcases List.mem_cons.mp hx with rfl | hx
        · exact h2
        · intro hset
          exact ih (c :: set) (cnt + 1) hx (List.mem_cons_of_mem c hset)

/-- The granted partition never contains the same identifier twice. -/
lemma claimLoop_claimed_nodup (limit : Nat) (set : List String) (cnt : Nat)
    (cs : List String) : ((claimLoop limit set cnt cs).1).Nodup := by
  induction cs generalizing set cnt with
  | nil => simp [claimLoop]
  | cons c cs ih =>
    simp only [claimLoop]
    by_cases h1 : limit ≤ cnt
    · rw [if_pos h1]
      exact ih set cnt
    · rw [if_neg h1]
      by_cases h2 : c ∈ set
      · rw [if_pos h2]
        exact ih set cnt
      · rw [if_neg h2]
        refine List.Nodup.cons ?_ (ih (c :: set) (cnt + 1))
        intro hmem
        exact claimLoop_claimed_not_mem limit (c :: set) (cnt + 1) cs hmem
          (List.mem_cons_self c set)

/-- The granted partition is exactly the prefix, of length bounded by
the remaining budget, of the novel subsequence of the candidates. -/
lemma claimLoop_claimed_eq_take (limit : Nat) (set : List String) (cnt : Nat)
    (cs : List String) :
    (claimLoop limit set cnt cs).1 = (novelSeq set cs).take (limit - cnt) := by
  induction cs generalizing set cnt with
  | nil => simp [claimLoop, novelSeq]
  | cons c cs ih =>
    simp only [claimLoop, novelSeq]
    by_cases h1 : limit ≤ cnt
    · rw [if_pos h1]
      have hz : limit - cnt = 0 := Nat.sub_eq_zero_of_le h1
      rw [ih set cnt, hz, List.take_zero]
      by_cases h2 : c ∈ set
      · rw [if_pos h2, List.take_zero]
      · rw [if_neg h2, List.take_zero]
    · rw [if_neg h1]
      by_cases h2 : c ∈ set
      · rw [if_pos h2, if_pos h2]
        exact ih set cnt
      · rw [if_neg h2, if_neg h2]
        have hstep : limit - cnt = (limit - (cnt + 1)) + 1 := by omega
        rw [hstep, List.take_succ_cons, ih (c :: set) (cnt + 1)]

/-- With an exhausted budget the loop grants nothing and rejects the
whole candidate list in order. -/
lemma claimLoop_exhausted (limit : Nat) (set : List String) (cnt : Nat)
    (cs : List String) (h : limit ≤ cnt) : claimLoop limit set cnt cs = ([], cs) := by
  induction cs generalizing set cnt with
  | nil => simp [claimLoop]
  | cons c cs ih =>
    simp only [claimLoop, if_pos h]
    rw [ih set cnt h]

/-- If the loop grants nothing, the rejected partition is the candidate
list itself, in order. -/
lemma claimLoop_rejected_of_claimed_nil (limit : Nat) (set : List String) (cnt : Nat)
    (cs : List String) (h : (claimLoop limit set cnt cs).1 = []) :
    (claimLoop limit set cnt cs).2 = cs := by
  induction cs generalizing set cnt with
  | nil => simp [claimLoop]
  | cons c cs ih =>
    simp only [claimLoop] at h ⊢
    by_cases h1 : limit ≤ cnt
    · rw [if_pos h1] at h ⊢
      rw [ih set cnt h]
    · rw [if_neg h1] at h ⊢
      by_cases h2 : c ∈ set
      · rw [if_pos h2] at h ⊢
        rw [ih set cnt h]
      · rw [if_neg h2] at h
        exact absurd h (List.cons_ne_nil c _)

/-! ### Claim cycle projection lemmas -/

/-- The claimed partition of a failure-free cycle is the first component
of the decision loop run on the filtered candidates. -/
lemma claimCycle_claimed (log lines : List String) (lim : Option Int) :
    (claimCycle log (some lines) lim).claimed =
      (claimLoop (effLimit lim (filterLines lines).length) (readProvidedSet log) 0
        (filterLines lines)).1 := by
  simp only [claimCycle, claimCycleF]
  split
  · rename_i h
    rw [List.isEmpty_iff.mp h]
    simp [claimLoop]
  · split
    · rename_i h
      exact absurd h (by simp)
    · split
      · rfl
      · rfl

/-- The rejected partition of a failure-free cycle is the second
component of the decision loop run on the filtered candidates. -/
lemma claimCycle_rejected (log lines : List String) (lim : Option Int) :
    (claimCycle log (some lines) lim).rejected =
      (claimLoop (effLimit lim (filterLines lines).length) (readProvidedSet log) 0
        (filterLines lines)).2 := by
  simp only [claimCycle, claimCycleF]
  split
  · rename_i h
    rw [List.isEmpty_iff.mp h]
    simp [claimLoop]
  · split
    · rename_i h
      exact absurd h (by simp)
    · split
      · rfl
      · rfl

/-- The log left by a failure-free cycle: unchanged when nothing was
granted, extended by the unique-append of the grants otherwise. -/
lemma claimCycle_log (log lines : List String) (lim : Option Int) :
    (claimCycle log (some lines) lim).log =
      if ((claimCycle log (some lines) lim).claimed).isEmpty then log
      else (appendProvidedLines log ((claimCycle log (some lines) lim).claimed)).1 := by
  rw [claimCycle_claimed]
  simp only [claimCycle, claimCycleF]
  split
  · rename_i h
    rw [List.isEmpty_iff.mp h]
    simp [claimLoop]
  · split
    · rename_i h
      exact absurd h (by simp)
    · split
      · rfl
      · rfl

/-- A cycle on a missing or non-array `lines` field: empty batch, empty
partitions, untouched log, no error. -/
lemma claimCycle_none (log : List String) (lim : Option Int) (lf pf : Bool) :
    claimCycleF log none lim lf pf = ⟨[], [], log⟩ := rfl

/-! ### Derived cycle lemmas -/

/-- A granted identifier was not in the store when the cycle began. -/
lemma claimCycle_claimed_fresh {log lines : List String} {lim : Option Int} {x : String}
    (hx : x ∈ (claimCycle log (some lines) lim).claimed) : x ∉ readProvidedSet log := by
  rw [claimCycle_claimed] at hx
  exact claimLoop_claimed_not_mem _ _ _ _ hx

/-- A granted identifier is one of the filtered candidates. -/
lemma claimCycle_claimed_sub {log lines : List String} {lim : Option Int} {x : String}
    (hx : x ∈ (claimCycle log (some lines) lim).claimed) : x ∈ filterLines lines := by
  rw [claimCycle_claimed] at hx
  exact (claimLoop_perm _ _ _ (filterLines lines)).mem_iff.mp (List.mem_append_left _ hx)

/-- A rejected identifier is one of the filtered candidates. -/
lemma claimCycle_rejected_sub {log lines : List String} {lim : Option Int} {x : String}
    (hx : x ∈ (claimCycle log (some lines) lim).rejected) : x ∈ filterLines lines := by
  rw [claimCycle_rejected] at hx
  exact (claimLoop_perm _ _ _ (filterLines lines)).mem_iff.mp (List.mem_append_right _ hx)

/-- No cycle grants the same identifier twice. -/
lemma claimCycle_claimed_nodup (log lines : List String) (lim : Option Int) :
    ((claimCycle log (some lines) lim).claimed).Nodup := by
  rw [claimCycle_claimed]
  exact claimLoop_claimed_nodup _ _ _ _

/-- Membership in the store after a failure-free cycle: the old store
united with the cycle's grants. -/
lemma claimCycle_mem_log {x : String} (log lines : List String) (lim : Option Int) :
    x ∈ readProvidedSet (claimCycle log (some lines) lim).log ↔
      x ∈ readProvidedSet log ∨ x ∈ (claimCycle log (some lines) lim).claimed := by
  rw [claimCycle_log]
  split
  · rename_i h
    rw [List.isEmpty_iff.mp h]
    simp
  · rw [mem_readProvidedSet_append]
    have : filterLines ((claimCycle log (some lines) lim).claimed) =
        (claimCycle log (some lines) lim).claimed :=
      filterLines_eq_self fun y hy => mem_filterLines_trimmed (claimCycle_claimed_sub hy)
    rw [this]

/-- A candidate already present in the store is always rejected and
never granted. -/
lemma claimCycle_resubmit {log lines : List String} {lim : Option Int} {x : String}
    (hstore : x ∈ readProvidedSet log) (hcand : x ∈ filterLines lines) :
    x ∈ (claimCycle log (some lines) lim).rejected ∧
      x ∉ (claimCycle log (some lines) lim).claimed := by
  have hncl : x ∉ (claimCycle log (some lines) lim).claimed := fun hx =>
    claimCycle_claimed_fresh hx hstore
  refine ⟨?_, hncl⟩
  rw [claimCycle_rejected]
  rw [claimCycle_claimed] at hncl
  rcases List.mem_append.mp ((claimLoop_perm _ _ _ (filterLines lines)).mem_iff.mpr hcand) with
    h | h
  · exact absurd h hncl
  · exact h

/-! ### History lemmas -/

/-- Any identifier granted anywhere in a history was absent from the
store the history started from. -/
lemma runHistory_claimed_fresh (h : List (List String × Option Int)) (log : List String)
    {x : String} (hx : x ∈ ((runHistory log h).map ClaimOutcome.claimed).flatten) :
    x ∉ readProvidedSet log := by
  induction h generalizing log with
  | nil => simp [runHistory] at hx
  | cons call rest ih =>
    obtain ⟨ls, lim⟩ := call
    simp only [runHistory, List.map_cons, List.flatten_cons, List.mem_append] at hx
    intro hstore
    rcases hx with h1 | h1
    · exact claimCycle_claimed_fresh h1 hstore
    · exact ih _ h1 ((claimCycle_mem_log log ls lim).mpr (Or.inl hstore))

/-- Across a whole history, the concatenation of all granted partitions
has no repeated identifier. -/
lemma runHistory_flatten_nodup (h : List (List String × Option Int)) (log : List String) :
    (((runHistory log h).map ClaimOutcome.claimed).flatten).Nodup := by
  induction h generalizing log with
  | nil => simp [runHistory]
  | cons call rest ih =>
    obtain ⟨ls, lim⟩ := call
    simp only [runHistory, List.map_cons, List.flatten_cons]
    refine (claimCycle_claimed_nodup log ls lim).append (ih _) ?_
    intro x hx hx'
    exact runHistory_claimed_fresh rest _ hx'
      ((claimCycle_mem_log log ls lim).mpr (Or.inr hx))

/-- A fresh trimmed identifier proposed alone, with no limit, is always
granted. -/
lemma claimCycle_singleton_fresh {L : List String} {c : String} (hc1 : jsTrim c = c)
    (hc2 : c ≠ "") (hmem : c ∉ readProvidedSet L) :
    (claimCycle L (some [c]) none).claimed = [c] ∧
      (claimCycle L (some [c]) none).rejected = [] := by
  have hfl : filterLines [c] = [c] := by
    refine filterLines_eq_self fun x hx => ?_
    rw [List.mem_singleton] at hx
    subst hx
    exact ⟨hc1, hc2⟩
  rw [claimCycle_claimed, claimCycle_rejected, hfl]
  show (claimLoop 1 (readProvidedSet L) 0 [c]).1 = [c] ∧
    (claimLoop 1 (readProvidedSet L) 0 [c]).2 = []
  simp only [claimLoop]
  rw [if_neg (by omega : ¬ (1 : Nat) ≤ 0), if_neg hmem]
  simp [claimLoop]

/-- Changing the raw limit to one with the same effective value does not
change the cycle. -/
lemma claimCycle_congr_limit (log lines : List String) {l1 l2 : Option Int}
    (h : effLimit l1 (filterLines lines).length = effLimit l2 (filterLines lines).length) :
    claimCycle log (some lines) l1 = claimCycle log (some lines) l2 := by
  simp only [claimCycle, claimCycleF]
  rw [h]

/-- Each candidate's occurrences are split exactly between the two
partitions of a failure-free cycle. -/
lemma claimCycle_count (log lines : List String) (lim : Option Int) (x : String) :
    (filterLines lines).count x =
      (claimCycle log (some lines) lim).claimed.count x +
        (claimCycle log (some lines) lim).rejected.count x := by
  have hperm := claimLoop_perm (effLimit lim (filterLines lines).length)
    (readProvidedSet log) 0 (filterLines lines)
  rw [claimCycle_claimed, claimCycle_rejected]
  simpa using (hperm.count_eq x).symm

/-! ### Claim theorems -/

/-- C1: across every sequential history of successful claim calls from
an empty store, an identifier appears in a GRANTED partition at most
once; and a candidate already in the durable store is always placed in
DENIED and never in GRANTED. -/
theorem claim_uniqueness_history :
    (∀ h : List (List String × Option Int),
      (((runHistory [] h).map ClaimOutcome.claimed).flatten).Nodup) ∧
    ∀ (log lines : List String) (lim : Option Int) (x : String),
      x ∈ readProvidedSet log → x ∈ filterLines lines →
        x ∈ (claimCycle log (some lines) lim).rejected ∧
          x ∉ (claimCycle log (some lines) lim).claimed :=
  ⟨fun h => runHistory_flatten_nodup h [],
   fun _ _ _ _ hs hc => claimCycle_resubmit hs hc⟩

/-- Witness for C1 at the spec's own scenario: store `["a"]`, call
`claim(["a","c"])`; the resubmitted `"a"` is denied, not granted. -/
theorem claim_uniqueness_history_witness :
    "a" ∈ (claimCycle ["a"] (some ["a", "c"]) none).rejected ∧
      "a" ∉ (claimCycle ["a"] (some ["a", "c"]) none).claimed :=
  claim_uniqueness_history.2 ["a"] ["a", "c"] none "a" (by decide) (by decide)

/-- C2 (amended): for a present positive limit `n`, the granted
partition is exactly the first `n` novel candidates in input order (so
its size is at most `n`); an absent limit behaves as a limit equal to
the filtered batch length.  (A present limit of 0 is excluded: the code
treats it as absent, see the counterexample.) -/
theorem claim_limit_respect :
    (∀ (log lines : List String) (n : Int), 0 < n →
      (claimCycle log (some lines) (some n)).claimed =
        (novelSeq (readProvidedSet log) (filterLines lines)).take n.toNat ∧
      (claimCycle log (some lines) (some n)).claimed.length ≤ n.toNat) ∧
    ∀ log lines : List String,
      claimCycle log (some lines) none =
        claimCycle log (some lines) (some ((filterLines lines).length : Int)) := by
  constructor
  · intro log lines n hn
    have heff : effLimit (some n) (filterLines lines).length = n.toNat := by
      rw [effLimit, if_neg (by omega : n ≠ 0)]
    constructor
    · rw [claimCycle_claimed, heff, claimLoop_claimed_eq_take, Nat.sub_zero]
    · rw [claimCycle_claimed, heff, claimLoop_claimed_eq_take, Nat.sub_zero]
      exact (List.length_take _ _).le.trans (Nat.min_le_left _ _)
  · intro log lines
    refine claimCycle_congr_limit log lines ?_
    simp only [effLimit]
    split
    · rename_i h
      have : (filterLines lines).length = 0 := by exact_mod_cast h
      rw [this]
    · exact (Int.toNat_natCast _).symm

/-- Witness for C2 at the spec's own scenario: empty store,
`claim(["x","y","z"], limit=1)`. -/
theorem claim_limit_respect_witness :
    (0 : Int) < 1 ∧
      ((claimCycle [] (some ["x", "y", "z"]) (some 1)).claimed =
        (novelSeq (readProvidedSet []) (filterLines ["x", "y", "z"])).take (1 : Int).toNat ∧
      (claimCycle [] (some ["x", "y", "z"]) (some 1)).claimed.length ≤ (1 : Int).toNat) :=
  ⟨by decide, claim_limit_respect.1 [] ["x", "y", "z"] 1 (by decide)⟩

/-- Counterexample to C2 as stated: `limit` is present, a non-negative
integer, and equal to 0, yet the call grants one identifier — the code's
`Number(req.body.limit) || candidates.length` treats a present 0 as
absent. -/
theorem claim_limit_zero_counterexample :
    ¬ (claimCycle [] (some ["a"]) (some 0)).claimed.length ≤ 0 := by decide

/-- C3: if loading the store or persisting the grants fails, the cycle
resolves with GRANTED empty, every filtered candidate in DENIED, and an
unchanged durable log. -/
theorem claim_failure_atomic :
    ∀ (log lines : List String) (lim : Option Int) (lf pf : Bool), lf = true ∨ pf = true →
      claimCycleF log (some lines) lim lf pf = ⟨[], filterLines lines, log⟩ := by
  intro log lines lim lf pf hfail
  simp only [claimCycleF]
  split
  · rename_i h
    rw [List.isEmpty_iff.mp h]
  · split
    · rfl
    · rename_i hlf
      have hpf : pf = true := by
        rcases hfail with h | h
        · exact absurd h hlf
        · exact h
      subst hpf
      split
      · rename_i hnil
        have h1 := List.isEmpty_iff.mp hnil
        rw [h1, claimLoop_rejected_of_claimed_nil _ _ _ _ h1]
      · rfl

/-- Witness for C3 at the spec's failure-injection scenario: a cycle
with 3 novel candidates whose persistence write fails returns no grants,
rejects all 3, and leaves the store unchanged. -/
theorem claim_failure_atomic_witness :
    (false = true ∨ true = true) ∧
      claimCycleF [] (some ["a", "b", "c"]) none false true =
        ⟨[], filterLines ["a", "b", "c"], []⟩ :=
  ⟨Or.inr rfl, claim_failure_atomic [] ["a", "b", "c"] none false true (Or.inr rfl)⟩

/-- C4: every trimmed, blank-filtered candidate lands in exactly one of
the two partitions, and the filtered length is the sum of the two
partition lengths. -/
theorem claim_coverage :
    ∀ (log lines : List String) (lim : Option Int),
      (filterLines lines).length = (claimCycle log (some lines) lim).claimed.length +
          (claimCycle log (some lines) lim).rejected.length ∧
      ∀ x : String, (filterLines lines).count x =
          (claimCycle log (some lines) lim).claimed.count x +
            (claimCycle log (some lines) lim).rejected.count x := by
  intro log lines lim
  have hperm := claimLoop_perm (effLimit lim (filterLines lines).length)
    (readProvidedSet log) 0 (filterLines lines)
  rw [claimCycle_claimed, claimCycle_rejected]
  constructor
  · simpa using hperm.length_eq.symm
  · intro x
    rw [← claimCycle_claimed, ← claimCycle_rejected]
    exact claimCycle_count log lines lim x

/-- C5: a candidate denied without being granted or previously stored
(that is, denied only by limit exhaustion) is not persisted and a later
singleton claim of it is granted; the spec's two-step scenario holds
concretely. -/
theorem claim_limit_denied_reclaimable :
    (∀ (log lines : List String) (lim : Option Int) (c : String),
      c ∈ (claimCycle log (some lines) lim).rejected →
      c ∉ readProvidedSet log →
      c ∉ (claimCycle log (some lines) lim).claimed →
        c ∉ readProvidedSet (claimCycle log (some lines) lim).log ∧
        (claimCycle (claimCycle log (some lines) lim).log (some [c]) none).claimed = [c] ∧
        (claimCycle (claimCycle log (some lines) lim).log (some [c]) none).rejected = []) ∧
    claimCycle [] (some ["x", "y", "z"]) (some 1) = ⟨["x"], ["y", "z"], ["x"]⟩ ∧
    claimCycle ["x"] (some ["y"]) none = ⟨["y"], [], ["x", "y"]⟩ := by
  refine ⟨?_, by decide, by decide⟩
  intro log lines lim c hrej hstore hncl
  have hcand : c ∈ filterLines lines := claimCycle_rejected_sub hrej
  have htrim := mem_filterLines_trimmed hcand
  have hpost : c ∉ readProvidedSet (claimCycle log (some lines) lim).log := by
    rw [claimCycle_mem_log]
    rintro (h | h)
    · exact hstore h
    · exact hncl h
  exact ⟨hpost, claimCycle_singleton_fresh htrim.1 htrim.2 hpost⟩

/-- Witness for C5: in the spec's scenario, `"y"` is denied by the limit
in the first call, stays unpersisted, and is granted by the follow-up
call. -/
theorem claim_limit_denied_reclaimable_witness :
    "y" ∉ readProvidedSet (claimCycle [] (some ["x", "y", "z"]) (some 1)).log ∧
      (claimCycle (claimCycle [] (some ["x", "y", "z"]) (some 1)).log
        (some ["y"]) none).claimed = ["y"] ∧
      (claimCycle (claimCycle [] (some ["x", "y", "z"]) (some 1)).log
        (some ["y"]) none).rejected = [] :=
  claim_limit_denied_reclaimable.1 [] ["x", "y", "z"] (some 1) "y"
    (by decide) (by decide) (by decide)

/-- C6: within one call no identifier is granted twice — each identifier
occurs at most once in GRANTED, so all occurrences beyond the first are
denied — and the spec's duplicate scenario holds concretely. -/
theorem claim_intra_batch_dedup :
    (∀ (log lines : List String) (lim : Option Int),
      ((claimCycle log (some lines) lim).claimed).Nodup ∧
      ∀ v : String, (filterLines lines).count v ≤
          (claimCycle log (some lines) lim).rejected.count v + 1) ∧
    claimCycle [] (some ["a", "b", "a"]) none = ⟨["a", "b"], ["a"], ["a", "b"]⟩ := by
  refine ⟨?_, by decide⟩
  intro log lines lim
  refine ⟨claimCycle_claimed_nodup log lines lim, fun v => ?_⟩
  have hcnt := claimCycle_count log lines lim v
  have hle := List.nodup_iff_count_le_one.mp (claimCycle_claimed_nodup log lines lim) v
  omega

/-- C7: `load` returns the deduplicated set of trimmed, non-blank
records, and after `appendUnique(L)` it returns the previous set united
with the trimmed, blank-filtered elements of `L` (read-your-writes). -/
theorem store_round_trip :
    ∀ (log lines : List String) (x : String),
      (readProvidedSet log).Nodup ∧
      (x ∈ readProvidedSet (appendProvidedLines log lines).1 ↔
        x ∈ readProvidedSet log ∨ x ∈ filterLines lines) :=
  fun log lines _ => ⟨nodup_uniqFirst _ _, mem_readProvidedSet_append log lines⟩

/-- C8 (amended): the `added` count returned by the ingestion endpoint
is the number of distinct trimmed, non-blank identifiers of the request
itself — deduplicated only within the request, all of them written
regardless of whether they are already in the durable set (whose
membership still comes out as the union). -/
theorem provided_append_count :
    ∀ (log : List String) (linesOpt : Option (List String)),
      (providedAppend log linesOpt).2 = (filterLines (linesOpt.getD [])).toFinset.card ∧
      ∀ x, x ∈ readProvidedSet (providedAppend log linesOpt).1 ↔
        x ∈ readProvidedSet log ∨ x ∈ filterLines (linesOpt.getD []) :=
  fun log linesOpt =>
    ⟨appendProvidedLines_count log (linesOpt.getD []),
     fun _ => mem_readProvidedSet_append log (linesOpt.getD [])⟩

/-- Counterexample to C8 as stated: `"a"` is already in the durable set,
so the count of genuinely new identifiers in the request is 0, yet the
endpoint reports `added = 1` (and appends a duplicate record). -/
theorem provided_append_count_counterexample :
    "a" ∈ readProvidedSet ["a"] ∧ (providedAppend ["a"] (some ["a"])).2 = 1 ∧
      (providedAppend ["a"] (some ["a"])).1 = ["a", "a"] := by decide

/-- C9: a claim request whose `lines` field is missing or not a
sequence is treated as an empty batch: both partitions empty, log
untouched, no failure path taken (even under injected I/O failure the
early return fires first). -/
theorem claim_malformed_empty :
    ∀ (log : List String) (lim : Option Int) (lf pf : Bool),
      claimCycleF log none lim lf pf = ⟨[], [], log⟩ :=
  fun log lim lf pf => claimCycle_none log lim lf pf

/-- C10: a negative numeric limit is clamped to zero by `Math.max`, so
the cycle grants nothing, rejects every filtered candidate, and leaves
the durable log unchanged. -/
theorem claim_negative_limit :
    ∀ (log lines : List String) (n : Int), n < 0 →
      claimCycle log (some lines) (some n) = ⟨[], filterLines lines, log⟩ := by
  intro log lines n hn
  have heff : effLimit (some n) (filterLines lines).length = 0 := by
    rw [effLimit, if_neg (by omega : n ≠ 0)]
    exact Int.toNat_of_nonpos (le_of_lt hn)
  simp only [claimCycle, claimCycleF]
  split
  · rename_i h
    rw [List.isEmpty_iff.mp h]
  · rw [heff, claimLoop_exhausted 0 (readProvidedSet log) 0 (filterLines lines) (Nat.le_refl 0)]
    simp

/-- Witness for C10: `limit = -1` on a one-candidate batch grants
nothing and persists nothing. -/
theorem claim_negative_limit_witness :
    (-1 : Int) < 0 ∧
      claimCycle [] (some ["a"]) (some (-1)) = ⟨[], filterLines ["a"], []⟩ :=
  ⟨by decide, claim_negative_limit [] ["a"] (-1) (by decide)⟩
